import Mathlib

/-!
Shallow embedding of the ECG signal windowing, augmentation and
label-alignment pipeline of `classify.py`, together with theorems about
its behaviour.

Numeric values (numpy float arrays) are modelled as rationals.  The
random draws made by the augmentation functions (`np.random.normal`,
`np.random.choice`, `np.random.randn`) are passed in as explicit
parameters: any value in the support of the corresponding distribution
is a possible draw, so a universally quantified parameter models the
drawn randomness faithfully.
-/

set_option autoImplicit false

/-- A raw signal as stored in the preloaded store: an ordered list of
samples, each a pair of the two lead (channel) measurements. -/
abbrev RawSig := List (ℚ × ℚ)

/-- A generic 2-D numeric array (list of rows), the shape that
`scaling`, `shift` and `transform` operate on. -/
abbrev Mat := List (List ℚ)

/-- Total element access `X[i][j]` with default 0 (used only in
specifications, never in the embedding of the code itself). -/
def elemAt (X : Mat) (i j : ℕ) : ℚ := (X.getD i []).getD j 0

/-- `scaling(X, sigma)` from `classify.py`.  `scalingFactor` is the
drawn row vector `np.random.normal(loc=1.0, scale=sigma, size=(1,
X.shape[1]))` (one draw per column of `X`);
`np.matmul(np.ones((X.shape[0], 1)), scalingFactor)` replicates that row
vector to every row, and the result multiplies `X` elementwise, so entry
`(i, j)` of the result is `X[i][j] * scalingFactor[j]`. -/
def scaling (X : Mat) (scalingFactor : List ℚ) : Mat :=
  X.map (fun row => List.zipWith (fun x f => x * f) row scalingFactor)

/-- `shift(sig, interval)` from `classify.py`: for each column `col`, an
integer `offset = np.random.choice(range(-interval, interval))` is drawn
and `offset / 1000` is added to every entry of that column.  The drawn
offsets are passed as the explicit list `offsets`, one per column. -/
def shift (sig : Mat) (offsets : List ℤ) : Mat :=
  sig.map (fun row =>
    List.zipWith (fun x (o : ℤ) => x + (o : ℚ) / 1000) row offsets)

/-- `transform(sig, train)` from `classify.py`.  `r1` and `r2` are the
two independent draws of `np.random.randn()` that gate the two
augmentations at threshold 0.5; `factors` and `offsets` are the draws
consumed by `scaling` and `shift` when they fire. -/
def transform (sig : Mat) (train : Bool) (r1 r2 : ℚ)
    (factors : List ℚ) (offsets : List ℤ) : Mat :=
  if train then
    let sig1 := if r1 > 1/2 then scaling sig factors else sig
    if r2 > 1/2 then shift sig1 offsets else sig1
  else sig

/-- `extend_ts(ts, length)` from `classify.py`: allocate
`np.zeros((length, 2))` and copy the first `min(length, ts.shape[0])`
rows of `ts` into its start; the remaining rows stay zero. -/
def extend_ts (ts : RawSig) (length : ℕ) : RawSig :=
  (List.range length).map
    (fun i => if h : i < ts.length then ts.get ⟨i, h⟩ else (0, 0))

/-- The `.T` applied in `ECGDataset.__getitem__` to the `(length × 2)`
result of `extend_ts`: the channels-first matrix whose row `c` lists
channel `c` over all time steps. -/
def transposeTS (ts : RawSig) : Mat :=
  [ts.map Prod.fst, ts.map Prod.snd]

/-- `insert_ones(y, end_step_x)` from `classify.py`:
`end_step_y = int(end_step_x * 1000 / 15000.0)` (Python `int()`
truncates toward zero, which on these integer inputs is exactly
`Int.tdiv`), then the loop sets `y[i] = 1` for every
`i in range(0, end_step_y + 1)` guarded by `i < y.shape[0]`. -/
def insert_ones (y : List ℚ) (end_step_x : ℤ) : List ℚ :=
  let end_step_y : ℤ := Int.tdiv (end_step_x * 1000) 15000
  (List.range (end_step_y + 1).toNat).foldl
    (fun acc i => if i < acc.length then acc.set i 1 else acc) y

/-- Rows of `extend_ts ts n`. -/
theorem extend_ts_length (ts : RawSig) (n : ℕ) : (extend_ts ts n).length = n := by
  simp [extend_ts]

/-- Entry `i` of `extend_ts ts n`, for `i < n`. -/
theorem extend_ts_getD (ts : RawSig) (n i : ℕ) (h : i < n) :
    (extend_ts ts n).getD i (0, 0) =
      if h2 : i < ts.length then ts.get ⟨i, h2⟩ else (0, 0) := by
  simp [extend_ts, List.getD_eq_getElem?_getD, List.getElem?_map,
    List.getElem?_range, h]

/-- `extend_ts` is the identity when the target length is the input
length. -/
theorem extend_ts_self (ts : RawSig) : extend_ts ts ts.length = ts := by
  apply List.ext_getElem
  · exact extend_ts_length ts ts.length
  · intro i h1 h2
    simp [extend_ts, h2]

/-- C3: for every input signal of any row count (including zero rows)
and every target length `L`, `extend_ts` returns exactly `L` rows; the
first `min(L, samples)` rows equal the corresponding input rows and the
remaining rows are all zero (input rows beyond `L` are discarded). -/
theorem extend_ts_shape_spec (ts : RawSig) (L : ℕ) :
    (extend_ts ts L).length = L ∧
    (∀ i, i < min L ts.length →
      (extend_ts ts L).getD i (0, 0) = ts.getD i (0, 0)) ∧
    (∀ i, min L ts.length ≤ i → i < L →
      (extend_ts ts L).getD i (0, 0) = (0, 0)) := by
  refine ⟨extend_ts_length ts L, ?_, ?_⟩
  · intro i hi
    have hL : i < L := lt_of_lt_of_le hi (min_le_left _ _)
    have hts : i < ts.length := lt_of_lt_of_le hi (min_le_right _ _)
    rw [extend_ts_getD ts L i hL, dif_pos hts, List.getD_eq_getElem _ _ hts]
    simp
  · intro i hmin hL
    rw [extend_ts_getD ts L i hL, dif_neg]
    omega

/-- Witness for C3 at a concrete input. -/
theorem extend_ts_shape_spec_witness :
    (extend_ts [((1 : ℚ), (2 : ℚ)), (3, 4)] 3).length = 3 ∧
    (∀ i, i < min 3 ([((1 : ℚ), (2 : ℚ)), (3, 4)]).length →
      (extend_ts [((1 : ℚ), (2 : ℚ)), (3, 4)] 3).getD i (0, 0) =
        ([((1 : ℚ), (2 : ℚ)), (3, 4)]).getD i (0, 0)) ∧
    (∀ i, min 3 ([((1 : ℚ), (2 : ℚ)), (3, 4)]).length ≤ i → i < 3 →
      (extend_ts [((1 : ℚ), (2 : ℚ)), (3, 4)] 3).getD i (0, 0) = (0, 0)) :=
  extend_ts_shape_spec [((1 : ℚ), (2 : ℚ)), (3, 4)] 3

/-- C8: `extend_ts` is the identity on input that already has exactly
the target number of rows. -/
theorem extend_ts_id_on_fixed_length (ts : RawSig) (L : ℕ)
    (h : ts.length = L) : extend_ts ts L = ts := by
  subst h
  exact extend_ts_self ts

/-- Witness for C8 at a concrete input. -/
theorem extend_ts_id_on_fixed_length_witness :
    extend_ts [((1 : ℚ), (2 : ℚ)), (3, 4)] 2 = [((1 : ℚ), (2 : ℚ)), (3, 4)] :=
  extend_ts_id_on_fixed_length [((1 : ℚ), (2 : ℚ)), (3, 4)] 2 rfl

/-- The write loop of `insert_ones` preserves the vector's length. -/
theorem insert_ones_loop_length (y : List ℚ) (n : ℕ) :
    ((List.range n).foldl
      (fun acc i => if i < acc.length then acc.set i 1 else acc) y).length
      = y.length := by
  induction n with
  | zero => simp
  | succ n ih =>
    rw [List.range_succ, List.foldl_append]
    simp only [List.foldl_cons, List.foldl_nil]
    split
    · rw [List.length_set]
      exact ih
    · exact ih

/-- The write loop of `insert_ones` pointwise: after folding over
`range n`, entry `i` is 1 when `i < n` and `i` is inside the vector,
and is unchanged otherwise. -/
theorem insert_ones_loop_getElem? (y : List ℚ) (n : ℕ) (i : ℕ) :
    ((List.range n).foldl
      (fun acc i => if i < acc.length then acc.set i 1 else acc) y)[i]?
      = if i < n ∧ i < y.length then some 1 else y[i]? := by
  induction n with
  | zero => simp
  | succ n ih =>
    rw [List.range_succ, List.foldl_append]
    simp only [List.foldl_cons, List.foldl_nil]
    split
    · next hn =>
      rw [List.getElem?_set]
      have hlen := insert_ones_loop_length y n
      rw [hlen] at hn
      by_cases hni : n = i
      · subst hni
        rw [if_pos rfl, if_pos (by rw [hlen]; exact hn), if_pos ⟨by omega, hn⟩]
      · rw [if_neg hni, ih]
        have hne : i ≠ n := fun h => hni h.symm
        exact if_congr (by omega) rfl rfl
    · next hn =>
      rw [insert_ones_loop_length y n] at hn
      rw [ih]
      exact if_congr (by omega) rfl rfl

/-- `insert_ones` preserves the length of the label vector. -/
theorem insert_ones_length (y : List ℚ) (e : ℤ) :
    (insert_ones y e).length = y.length :=
  insert_ones_loop_length y _

/-- `insert_ones` pointwise: entry `i` is 1 exactly when
`(i : ℤ) ≤ Int.tdiv (e * 1000) 15000` and `i` is inside the vector. -/
theorem insert_ones_getElem? (y : List ℚ) (e : ℤ) (i : ℕ) :
    (insert_ones y e)[i]? =
      if (i : ℤ) ≤ Int.tdiv (e * 1000) 15000 ∧ i < y.length then some 1
      else y[i]? := by
  unfold insert_ones
  rw [insert_ones_loop_getElem?]
  exact if_congr (and_congr (by omega) Iff.rfl) rfl rfl

/-- C4: for every non-negative AF end offset, `insert_ones` computes the
bound as the floor of `end_step_x * 1000 / 15000` (on non-negative input
truncation and floor division agree), sets to 1 every index from 0 up to
and including the bound that is strictly inside the vector, leaves
indices beyond the bound unchanged, and never writes outside the
vector's length. -/
theorem insert_ones_nonneg_spec (y : List ℚ) (e : ℤ) (he : 0 ≤ e) :
    (insert_ones y e).length = y.length ∧
    Int.tdiv (e * 1000) 15000 = e * 1000 / 15000 ∧
    15000 * (e * 1000 / 15000) ≤ e * 1000 ∧
    e * 1000 < 15000 * (e * 1000 / 15000 + 1) ∧
    ∀ i : ℕ, i < y.length →
      (insert_ones y e).getD i 0 =
        if (i : ℤ) ≤ e * 1000 / 15000 then 1 else y.getD i 0 := by
  have htd : Int.tdiv (e * 1000) 15000 = e * 1000 / 15000 :=
    Int.tdiv_eq_ediv (by omega) (by omega)
  refine ⟨insert_ones_length y e, htd, by omega, by omega, ?_⟩
  intro i hi
  rw [List.getD_eq_getElem?_getD, insert_ones_getElem?, htd,
    if_congr (and_iff_left hi) rfl rfl]
  split
  · rfl
  · rw [List.getD_eq_getElem?_getD]

/-- Witness for C4 at offset 20000 and a concrete two-entry vector
(the bound is 1333, so both entries are set to 1). -/
theorem insert_ones_nonneg_spec_witness :
    (0 : ℤ) ≤ 20000 ∧
    ((insert_ones [0, 0] 20000).length = ([0, 0] : List ℚ).length ∧
    Int.tdiv ((20000 : ℤ) * 1000) 15000 = (20000 : ℤ) * 1000 / 15000 ∧
    15000 * ((20000 : ℤ) * 1000 / 15000) ≤ 20000 * 1000 ∧
    (20000 : ℤ) * 1000 < 15000 * (20000 * 1000 / 15000 + 1) ∧
    ∀ i : ℕ, i < ([0, 0] : List ℚ).length →
      (insert_ones [0, 0] 20000).getD i 0 =
        if (i : ℤ) ≤ (20000 : ℤ) * 1000 / 15000 then 1
        else ([0, 0] : List ℚ).getD i 0) :=
  ⟨by decide, insert_ones_nonneg_spec [0, 0] 20000 (by decide)⟩

/-- C9: for the sentinel offset -1, and for every offset between -14 and
-1, the conversion truncates toward zero to 0, so `insert_ones` on a
non-empty label vector still sets index 0 to 1 instead of leaving the
vector untouched. -/
theorem insert_ones_negative_sentinel (y : List ℚ) (e : ℤ)
    (h1 : -14 ≤ e) (h2 : e ≤ -1) (hy : y ≠ []) :
    Int.tdiv (e * 1000) 15000 = 0 ∧ (insert_ones y e).getD 0 0 = 1 := by
  have htd : Int.tdiv (e * 1000) 15000 = 0 := by
    interval_cases e <;> decide
  refine ⟨htd, ?_⟩
  have hlen : 0 < y.length := List.length_pos.mpr hy
  rw [List.getD_eq_getElem?_getD, insert_ones_getElem?, htd,
    if_pos ⟨by omega, hlen⟩]
  rfl

/-- Witness for C9 at the sentinel offset -1 and vector `[0]`. -/
theorem insert_ones_negative_sentinel_witness :
    (-14 : ℤ) ≤ -1 ∧ (-1 : ℤ) ≤ -1 ∧ ([0] : List ℚ) ≠ [] ∧
    (Int.tdiv ((-1 : ℤ) * 1000) 15000 = 0 ∧
      (insert_ones [0] (-1)).getD 0 0 = 1) :=
  ⟨by decide, by decide, by decide,
    insert_ones_negative_sentinel [0] (-1) (by decide) (by decide) (by decide)⟩

/-- Entry `i` of a mapped list, when `i` is in range. -/
theorem getD_map {α β : Type} (g : α → β) (l : List α) (i : ℕ) (d : α)
    (d2 : β) (h : i < l.length) : (l.map g).getD i d2 = g (l.getD i d) := by
  rw [List.getD_eq_getElem _ _ (by simpa using h), List.getElem_map,
    List.getD_eq_getElem _ _ h]

/-- Entry `j` of a `zipWith`, when `j` is inside both lists. -/
theorem getD_zipWith {α β γ : Type} (f : α → β → γ) (l1 : List α)
    (l2 : List β) (j : ℕ) (d1 : α) (d2 : β) (d3 : γ)
    (h1 : j < l1.length) (h2 : j < l2.length) :
    (List.zipWith f l1 l2).getD j d3 = f (l1.getD j d1) (l2.getD j d2) := by
  rw [List.getD_eq_getElem _ _ (by rw [List.length_zipWith]; omega),
    List.getElem_zipWith, List.getD_eq_getElem _ _ h1,
    List.getD_eq_getElem _ _ h2]

/-- Entry `j` of a replicated list, when `j` is in range. -/
theorem getD_replicate {α : Type} (a d : α) (n j : ℕ) (h : j < n) :
    (List.replicate n a).getD j d = a := by
  rw [List.getD_eq_getElem _ _ (by simpa using h), List.getElem_replicate]

/-- The signal matrix `ECGDataset.__getitem__` builds before the
optional transform is applied: `extend_ts(sig, 15000).T`, a
channels-first matrix with 2 rows of 15000 time steps each. -/
def pipelineSig (sig0 : RawSig) : Mat := transposeTS (extend_ts sig0 15000)

/-- The pipeline matrix always has exactly 2 rows (channels). -/
theorem pipelineSig_length (sig0 : RawSig) : (pipelineSig sig0).length = 2 := rfl

/-- Every row (channel) of the pipeline matrix has 15000 entries. -/
theorem pipelineSig_row_length (sig0 : RawSig) (i : ℕ) (h : i < 2) :
    ((pipelineSig sig0).getD i []).length = 15000 := by
  match i, h with
  | 0, _ => simp [pipelineSig, transposeTS, extend_ts_length]
  | 1, _ => simp [pipelineSig, transposeTS, extend_ts_length]

/-- `scaling` preserves the number of rows. -/
theorem scaling_length (X : Mat) (f : List ℚ) :
    (scaling X f).length = X.length := by
  simp [scaling]

/-- Row `i` of `scaling X f` has `min` of the row length and the factor
count entries. -/
theorem scaling_row_length (X : Mat) (f : List ℚ) (i : ℕ)
    (hi : i < X.length) :
    ((scaling X f).getD i []).length = min (X.getD i []).length f.length := by
  unfold scaling
  rw [getD_map _ _ _ [] _ hi, List.length_zipWith]

/-- Entry `(i, j)` of `scaling X factors` is `X[i][j] * factors[j]`: the
drawn factor is indexed by the column, not the row. -/
theorem elemAt_scaling (X : Mat) (factors : List ℚ) (i j : ℕ)
    (hi : i < X.length) (hj1 : j < (X.getD i []).length)
    (hj2 : j < factors.length) :
    elemAt (scaling X factors) i j = elemAt X i j * factors.getD j 0 := by
  unfold elemAt scaling
  rw [getD_map _ _ _ [] _ hi]
  exact getD_zipWith _ _ _ j 0 0 0 hj1 hj2

/-- `shift` preserves the number of rows. -/
theorem shift_length (X : Mat) (offsets : List ℤ) :
    (shift X offsets).length = X.length := by
  simp [shift]

/-- Row `i` of `shift X offsets` has `min` of the row length and the
offset count entries. -/
theorem shift_row_length (X : Mat) (offsets : List ℤ) (i : ℕ)
    (hi : i < X.length) :
    ((shift X offsets).getD i []).length
      = min (X.getD i []).length offsets.length := by
  unfold shift
  rw [getD_map _ _ _ [] _ hi, List.length_zipWith]

/-- Entry `(i, j)` of `shift X offsets` is `X[i][j] + offsets[j]/1000`:
the drawn offset is indexed by the column, not the row. -/
theorem elemAt_shift (X : Mat) (offsets : List ℤ) (i j : ℕ)
    (hi : i < X.length) (hj1 : j < (X.getD i []).length)
    (hj2 : j < offsets.length) :
    elemAt (shift X offsets) i j
      = elemAt X i j + (offsets.getD j 0 : ℚ) / 1000 := by
  unfold elemAt shift
  rw [getD_map _ _ _ [] _ hi]
  exact getD_zipWith _ _ _ j 0 0 0 hj1 hj2

/-- The pipeline matrix of the all-ones raw signal of full length. -/
theorem pipelineSig_ones :
    pipelineSig (List.replicate 15000 ((1 : ℚ), (1 : ℚ)))
      = [List.replicate 15000 (1 : ℚ), List.replicate 15000 (1 : ℚ)] := by
  have h := extend_ts_self (List.replicate 15000 ((1 : ℚ), (1 : ℚ)))
  rw [List.length_replicate] at h
  unfold pipelineSig
  rw [h]
  unfold transposeTS
  rw [List.map_replicate, List.map_replicate]

/-- The all-ones raw signal of exactly 15000 samples, a concrete input
to the adapter's pipeline. -/
def onesSig : RawSig := List.replicate 15000 ((1 : ℚ), (1 : ℚ))

/-- A possible draw of `np.random.normal(loc=1.0, scale=0.1,
size=(1, 15000))`: factor 1 for column 0, factor 2 for column 1, factor
1 for every later column (the normal distribution has full support). -/
def scalingDrawCE : List ℚ := (1 : ℚ) :: 2 :: List.replicate 14998 1

/-- A possible draw of the per-column `np.random.choice(range(-20,
20))` offsets: offset 0 for column 0, offset 10 for column 1, offset 0
for every later column. -/
def shiftDrawCE : List ℤ := (0 : ℤ) :: 10 :: List.replicate 14998 0

/-- C1 counterexample: on the pipeline matrix of the all-ones raw
signal, with the scale augmentation firing (first `randn` draw 1 > 0.5,
second draw 0) and the drawn factors `1, 2, 1, ..., 1`, no choice of one
factor per channel reproduces the output, and the ratio between samples
0 and 1 of channel 0 is changed by the augmentation. -/
theorem scaling_per_channel_counterexample :
    ¬ (∃ c : List ℚ, c.length = 2 ∧
        ∀ i j : ℕ, i < 2 → j < 15000 →
          elemAt (transform (pipelineSig onesSig) true 1 0 scalingDrawCE []) i j
            = elemAt (pipelineSig onesSig) i j * c.getD i 0) ∧
    elemAt (transform (pipelineSig onesSig) true 1 0 scalingDrawCE []) 0 1
        * elemAt (pipelineSig onesSig) 0 0
      ≠ elemAt (pipelineSig onesSig) 0 1
        * elemAt (transform (pipelineSig onesSig) true 1 0 scalingDrawCE []) 0 0 := by
  have htr : transform (pipelineSig onesSig) true 1 0 scalingDrawCE []
      = scaling (pipelineSig onesSig) scalingDrawCE := by
    have e1 : ((1 : ℚ) > 1/2) = True := eq_true (by norm_num)
    have e2 : ((0 : ℚ) > 1/2) = False := eq_false (by norm_num)
    unfold transform
    simp only [e1, e2, if_true, if_false]
  have hX : pipelineSig onesSig
      = [List.replicate 15000 (1 : ℚ), List.replicate 15000 (1 : ℚ)] := by
    unfold onesSig
    exact pipelineSig_ones
  have hXlen : (pipelineSig onesSig).length = 2 := pipelineSig_length onesSig
  have hrow : ((pipelineSig onesSig).getD 0 []).length = 15000 :=
    pipelineSig_row_length onesSig 0 (by omega)
  have hflen : scalingDrawCE.length = 15000 := by
    unfold scalingDrawCE
    rw [List.length_cons, List.length_cons, List.length_replicate]
  have hX00 : elemAt (pipelineSig onesSig) 0 0 = 1 := by
    rw [hX]
    unfold elemAt
    rw [show ([List.replicate 15000 (1 : ℚ),
      List.replicate 15000 (1 : ℚ)].getD 0 []) = List.replicate 15000 (1 : ℚ)
      from rfl]
    exact getD_replicate 1 0 15000 0 (by omega)
  have hX01 : elemAt (pipelineSig onesSig) 0 1 = 1 := by
    rw [hX]
    unfold elemAt
    rw [show ([List.replicate 15000 (1 : ℚ),
      List.replicate 15000 (1 : ℚ)].getD 0 []) = List.replicate 15000 (1 : ℚ)
      from rfl]
    exact getD_replicate 1 0 15000 1 (by omega)
  have hY00 : elemAt (scaling (pipelineSig onesSig) scalingDrawCE) 0 0 = 1 := by
    rw [elemAt_scaling _ _ 0 0 (by omega) (by omega) (by omega), hX00]
    norm_num [scalingDrawCE]
  have hY01 : elemAt (scaling (pipelineSig onesSig) scalingDrawCE) 0 1 = 2 := by
    rw [elemAt_scaling _ _ 0 1 (by omega) (by omega) (by omega), hX01]
    norm_num [scalingDrawCE, List.getD]
  constructor
  · rintro ⟨c, hc, hpt⟩
    have h0 := hpt 0 0 (by omega) (by omega)
    have h1 := hpt 0 1 (by omega) (by omega)
    rw [htr, hY00, hX00] at h0
    rw [htr, hY01, hX01] at h1
    rw [one_mul] at h0 h1
    rw [← h0] at h1
    norm_num at h1
  · rw [htr, hY00, hY01, hX00, hX01]
    norm_num

/-- C1 (corrected): when scale augmentation fires in the training
transform on a pipeline matrix, there is one drawn factor per time step
(column of the channels-first matrix), and both channels' samples at
that time step are multiplied by that column's single factor; the
output keeps the input's shape and the ratio between the two channels
at any fixed time step is unchanged. -/
theorem scaling_per_timestep_spec (sig0 : RawSig) (factors : List ℚ)
    (offsets : List ℤ) (r1 r2 : ℚ) (hr1 : r1 > 1/2) (hr2 : ¬ r2 > 1/2)
    (hf : factors.length = 15000) :
    (transform (pipelineSig sig0) true r1 r2 factors offsets).length
        = (pipelineSig sig0).length ∧
    (∀ i, i < 2 →
      ((transform (pipelineSig sig0) true r1 r2 factors offsets).getD i []).length
        = ((pipelineSig sig0).getD i []).length) ∧
    (∀ i j : ℕ, i < 2 → j < 15000 →
      elemAt (transform (pipelineSig sig0) true r1 r2 factors offsets) i j
        = elemAt (pipelineSig sig0) i j * factors.getD j 0) ∧
    (∀ j : ℕ, j < 15000 →
      elemAt (transform (pipelineSig sig0) true r1 r2 factors offsets) 0 j
          * elemAt (pipelineSig sig0) 1 j
        = elemAt (transform (pipelineSig sig0) true r1 r2 factors offsets) 1 j
          * elemAt (pipelineSig sig0) 0 j) := by
  have htr : transform (pipelineSig sig0) true r1 r2 factors offsets
      = scaling (pipelineSig sig0) factors := by
    have e1 : (r1 > 1/2) = True := eq_true hr1
    have e2 : (r2 > 1/2) = False := eq_false hr2
    unfold transform
    simp only [e1, e2, if_true, if_false]
  rw [htr]
  have hXlen : (pipelineSig sig0).length = 2 := pipelineSig_length sig0
  have hpt : ∀ i j : ℕ, i < 2 → j < 15000 →
      elemAt (scaling (pipelineSig sig0) factors) i j
        = elemAt (pipelineSig sig0) i j * factors.getD j 0 := by
    intro i j hi hj
    exact elemAt_scaling _ _ i j (by omega)
      (by rw [pipelineSig_row_length sig0 i hi]; omega) (by omega)
  refine ⟨scaling_length _ _, ?_, hpt, ?_⟩
  · intro i hi
    rw [scaling_row_length _ _ i (by omega), pipelineSig_row_length sig0 i hi,
      hf, min_self]
  · intro j hj
    rw [hpt 0 j (by omega) hj, hpt 1 j (by omega) hj]
    ring

/-- Witness for the corrected C1 on the empty raw signal with all
factors 1. -/
theorem scaling_per_timestep_spec_witness :
    ((1 : ℚ) > 1/2) ∧ (¬ (0 : ℚ) > 1/2) ∧
    (List.replicate 15000 (1 : ℚ)).length = 15000 ∧
    ((transform (pipelineSig []) true 1 0 (List.replicate 15000 1) []).length
        = (pipelineSig []).length ∧
    (∀ i, i < 2 →
      ((transform (pipelineSig []) true 1 0 (List.replicate 15000 1) []).getD i []).length
        = ((pipelineSig []).getD i []).length) ∧
    (∀ i j : ℕ, i < 2 → j < 15000 →
      elemAt (transform (pipelineSig []) true 1 0 (List.replicate 15000 1) []) i j
        = elemAt (pipelineSig []) i j * (List.replicate 15000 (1 : ℚ)).getD j 0) ∧
    (∀ j : ℕ, j < 15000 →
      elemAt (transform (pipelineSig []) true 1 0 (List.replicate 15000 1) []) 0 j
          * elemAt (pipelineSig []) 1 j
        = elemAt (transform (pipelineSig []) true 1 0 (List.replicate 15000 1) []) 1 j
          * elemAt (pipelineSig []) 0 j)) :=
  ⟨by norm_num, by norm_num, by rw [List.length_replicate],
    scaling_per_timestep_spec [] (List.replicate 15000 1) [] 1 0
      (by norm_num) (by norm_num) (by rw [List.length_replicate])⟩

/-- C2 counterexample: on the pipeline matrix of the all-ones raw
signal, with the shift augmentation firing (first `randn` draw 0, second
draw 1 > 0.5) and the drawn offsets `0, 10, 0, ..., 0`, the claim fails:
although every sample moves by at most 20/1000, no choice of one
constant bias per channel (of the form offset/1000 with the offset drawn
from [-20, 20)) reproduces the output, since channel 0 is biased by 0 at
time step 0 and by 10/1000 at time step 1. -/
theorem shift_per_channel_counterexample :
    ¬ ((∀ i j : ℕ, i < 2 → j < 15000 →
        |elemAt (transform (pipelineSig onesSig) true 0 1 [] shiftDrawCE) i j
          - elemAt (pipelineSig onesSig) i j| ≤ 20/1000) ∧
      ∃ b : List ℚ, b.length = 2 ∧
        (∀ i : ℕ, i < 2 → ∃ o : ℤ, -20 ≤ o ∧ o < 20 ∧ b.getD i 0 = (o : ℚ) / 1000) ∧
        ∀ i j : ℕ, i < 2 → j < 15000 →
          elemAt (transform (pipelineSig onesSig) true 0 1 [] shiftDrawCE) i j
            = elemAt (pipelineSig onesSig) i j + b.getD i 0) := by
  have htr : transform (pipelineSig onesSig) true 0 1 [] shiftDrawCE
      = shift (pipelineSig onesSig) shiftDrawCE := by
    have e1 : ((0 : ℚ) > 1/2) = False := eq_false (by norm_num)
    have e2 : ((1 : ℚ) > 1/2) = True := eq_true (by norm_num)
    unfold transform
    simp only [e1, e2, if_true, if_false]
  have hX : pipelineSig onesSig
      = [List.replicate 15000 (1 : ℚ), List.replicate 15000 (1 : ℚ)] := by
    unfold onesSig
    exact pipelineSig_ones
  have hXlen : (pipelineSig onesSig).length = 2 := pipelineSig_length onesSig
  have hrow : ((pipelineSig onesSig).getD 0 []).length = 15000 :=
    pipelineSig_row_length onesSig 0 (by omega)
  have holen : shiftDrawCE.length = 15000 := by
    unfold shiftDrawCE
    rw [List.length_cons, List.length_cons, List.length_replicate]
  have hX00 : elemAt (pipelineSig onesSig) 0 0 = 1 := by
    rw [hX]
    unfold elemAt
    rw [show ([List.replicate 15000 (1 : ℚ),
      List.replicate 15000 (1 : ℚ)].getD 0 []) = List.replicate 15000 (1 : ℚ)
      from rfl]
    exact getD_replicate 1 0 15000 0 (by omega)
  have hX01 : elemAt (pipelineSig onesSig) 0 1 = 1 := by
    rw [hX]
    unfold elemAt
    rw [show ([List.replicate 15000 (1 : ℚ),
      List.replicate 15000 (1 : ℚ)].getD 0 []) = List.replicate 15000 (1 : ℚ)
      from rfl]
    exact getD_replicate 1 0 15000 1 (by omega)
  have hY00 : elemAt (shift (pipelineSig onesSig) shiftDrawCE) 0 0 = 1 := by
    rw [elemAt_shift _ _ 0 0 (by omega) (by omega) (by omega), hX00]
    norm_num [shiftDrawCE]
  have hY01 : elemAt (shift (pipelineSig onesSig) shiftDrawCE) 0 1
      = 1 + 10/1000 := by
    rw [elemAt_shift _ _ 0 1 (by omega) (by omega) (by omega), hX01]
    norm_num [shiftDrawCE, List.getD]
  rintro ⟨-, b, hb, -, hpt⟩
  have h0 := hpt 0 0 (by omega) (by omega)
  have h1 := hpt 0 1 (by omega) (by omega)
  rw [htr, hY00, hX00] at h0
  rw [htr, hY01, hX01] at h1
  rw [← h0] at h1
  norm_num at h1

/-- C2 (corrected): when shift augmentation fires in the training
transform on a pipeline matrix, with one integer offset drawn per time
step (column of the channels-first matrix) from [-20, 20), every output
sample differs from its input by exactly that column's offset/1000 —
hence by at most 20/1000 in absolute value — and the added bias is one
constant across both channels within a single time step (it varies
across time steps, not within a column). -/
theorem shift_per_timestep_spec (sig0 : RawSig) (offsets : List ℤ)
    (factors : List ℚ) (r1 r2 : ℚ) (hr1 : ¬ r1 > 1/2) (hr2 : r2 > 1/2)
    (ho : offsets.length = 15000) (hrange : ∀ o ∈ offsets, -20 ≤ o ∧ o < 20) :
    (transform (pipelineSig sig0) true r1 r2 factors offsets).length
        = (pipelineSig sig0).length ∧
    (∀ i, i < 2 →
      ((transform (pipelineSig sig0) true r1 r2 factors offsets).getD i []).length
        = ((pipelineSig sig0).getD i []).length) ∧
    (∀ i j : ℕ, i < 2 → j < 15000 →
      elemAt (transform (pipelineSig sig0) true r1 r2 factors offsets) i j
        = elemAt (pipelineSig sig0) i j + (offsets.getD j 0 : ℚ) / 1000) ∧
    (∀ i j : ℕ, i < 2 → j < 15000 →
      |elemAt (transform (pipelineSig sig0) true r1 r2 factors offsets) i j
        - elemAt (pipelineSig sig0) i j| ≤ 20/1000) := by
  have htr : transform (pipelineSig sig0) true r1 r2 factors offsets
      = shift (pipelineSig sig0) offsets := by
    have e1 : (r1 > 1/2) = False := eq_false hr1
    have e2 : (r2 > 1/2) = True := eq_true hr2
    unfold transform
    simp only [e1, e2, if_true, if_false]
  rw [htr]
  have hpt : ∀ i j : ℕ, i < 2 → j < 15000 →
      elemAt (shift (pipelineSig sig0) offsets) i j
        = elemAt (pipelineSig sig0) i j + (offsets.getD j 0 : ℚ) / 1000 := by
    intro i j hi hj
    exact elemAt_shift _ _ i j (by rw [pipelineSig_length]; omega)
      (by rw [pipelineSig_row_length sig0 i hi]; omega) (by omega)
  refine ⟨shift_length _ _, ?_, hpt, ?_⟩
  · intro i hi
    rw [shift_row_length _ _ i (by rw [pipelineSig_length]; omega),
      pipelineSig_row_length sig0 i hi, ho, min_self]
  · intro i j hi hj
    have hd : elemAt (shift (pipelineSig sig0) offsets) i j
        - elemAt (pipelineSig sig0) i j = (offsets.getD j 0 : ℚ) / 1000 := by
      rw [hpt i j hi hj]
      ring
    have hmem : offsets.getD j 0 ∈ offsets := by
      rw [List.getD_eq_getElem _ _ (by omega)]
      exact List.getElem_mem _
    obtain ⟨hlo, hhi⟩ := hrange _ hmem
    have hlo2 : (-20 : ℚ) ≤ (offsets.getD j 0 : ℚ) := by exact_mod_cast hlo
    have hhi2 : ((offsets.getD j 0 : ℤ) : ℚ) ≤ 20 := by
      have : (offsets.getD j 0 : ℤ) ≤ 20 := by omega
      exact_mod_cast this
    rw [hd, abs_le]
    constructor
    · linarith
    · linarith

/-- Witness for the corrected C2 on the empty raw signal with all
offsets 0. -/
theorem shift_per_timestep_spec_witness :
    (¬ (0 : ℚ) > 1/2) ∧ ((1 : ℚ) > 1/2) ∧
    (List.replicate 15000 (0 : ℤ)).length = 15000 ∧
    (∀ o ∈ List.replicate 15000 (0 : ℤ), -20 ≤ o ∧ o < 20) ∧
    ((transform (pipelineSig []) true 0 1 [] (List.replicate 15000 0)).length
        = (pipelineSig []).length ∧
    (∀ i, i < 2 →
      ((transform (pipelineSig []) true 0 1 [] (List.replicate 15000 0)).getD i []).length
        = ((pipelineSig []).getD i []).length) ∧
    (∀ i j : ℕ, i < 2 → j < 15000 →
      elemAt (transform (pipelineSig []) true 0 1 [] (List.replicate 15000 0)) i j
        = elemAt (pipelineSig []) i j
            + ((List.replicate 15000 (0 : ℤ)).getD j 0 : ℚ) / 1000) ∧
    (∀ i j : ℕ, i < 2 → j < 15000 →
      |elemAt (transform (pipelineSig []) true 0 1 [] (List.replicate 15000 0)) i j
        - elemAt (pipelineSig []) i j| ≤ 20/1000)) :=
  ⟨by norm_num, by norm_num, by rw [List.length_replicate],
    by
      intro o ho
      rcases List.eq_of_mem_replicate ho with rfl
      constructor <;> norm_num,
    shift_per_timestep_spec [] (List.replicate 15000 0) [] 0 1
      (by norm_num) (by norm_num) (by rw [List.length_replicate])
      (by
        intro o ho
        rcases List.eq_of_mem_replicate ho with rfl
        constructor <;> norm_num)⟩

/-- A recording metadata entry, the JSON-like dict consumed by
`classify.py`: `path` keys the preloaded store, `class` is the integer
class label (sentinel 2 = excluded), `sig_len` the original sample
count, and `af_ends` the list of AF-event end offsets, which are sample
indices within the original recording. -/
structure Entry where
  path : String
  «class» : ℤ
  sig_len : ℕ
  af_ends : List ℕ
deriving DecidableEq

/-- The Python error conditions the adapter can raise on access. -/
inductive PyErr where
  | indexError
  | keyError
deriving DecidableEq

/-- Python list indexing `l[idx]`: a negative index counts from the end
of the list; an index still out of range raises `IndexError`. -/
def pyListGet {α : Type} (l : List α) (idx : ℤ) : Except PyErr α :=
  let j : ℤ := if idx < 0 then idx + l.length else idx
  if 0 ≤ j then
    match l.get? j.toNat with
    | some a => Except.ok a
    | none => Except.error PyErr.indexError
  else Except.error PyErr.indexError

/-- `ECGDataset` from `classify.py`: the metadata list, the preloaded
signal store (a dict, modelled as a lookup returning `none` for a
missing key), and the optional signal and label transforms. -/
structure ECGDataset where
  metadata : List Entry
  preloaded_data : String → Option RawSig
  transform : Option (Mat → Mat) := none
  target_transform : Option (List ℚ → List ℚ) := none

/-- `ECGDataset.__getitem__` from `classify.py`: index the metadata
(Python list semantics), look the raw signal up by the entry's path
(`KeyError` when the store has no such key), extend to 15000 samples
and transpose, package the class label as a one-element float vector,
apply the optional signal and label transforms, and return the triple
`(sig, label, end)` where `end` is -1 when `af_ends` is empty and the
first element of `af_ends` otherwise. -/
def ECGDataset.getitem (ds : ECGDataset) (idx : ℤ) :
    Except PyErr (Mat × List ℚ × ℤ) :=
  match pyListGet ds.metadata idx with
  | Except.error e => Except.error e
  | Except.ok entry =>
    match ds.preloaded_data entry.path with
    | none => Except.error PyErr.keyError
    | some sig0 =>
      let sig := transposeTS (extend_ts sig0 15000)
      let label : List ℚ := [(entry.«class» : ℚ)]
      let sig2 := match ds.transform with
        | some f => f sig
        | none => sig
      let label2 := match ds.target_transform with
        | some g => g label
        | none => label
      let e : ℤ := match entry.af_ends with
        | [] => -1
        | a :: _ => (a : ℤ)
      Except.ok (sig2, label2, e)

/-- `ECGDataset.__len__` from `classify.py`. -/
def ECGDataset.len (ds : ECGDataset) : ℕ := ds.metadata.length

/-- `get_preloaded_data(metadata_json, limit)` from `classify.py`:
filter out the entries whose class is the sentinel 2, default the limit
to the filtered length, and build the preloaded dict by reading
`wfdb.rdsamp(path, sampto=min(50000, sig_len))` for each kept entry.
`rdsamp` abstracts the external signal reader (a function of the path
and the `sampto` bound). -/
def get_preloaded_data (metadata_json : List Entry) (limit : Option ℕ)
    (rdsamp : String → ℕ → RawSig) :
    List Entry × (String → Option RawSig) :=
  let metadata := metadata_json.filter (fun e => e.«class» != 2)
  let lim := match limit with
    | none => metadata.length
    | some l => l
  let preloaded_data := (metadata.take lim).foldl
    (fun d e => fun p =>
      if p = e.path then some (rdsamp e.path (min 50000 e.sig_len)) else d p)
    (fun _ => none)
  (metadata.take lim, preloaded_data)

/-- C5: whenever the adapter's get succeeds, the returned event offset
is -1 exactly when the indexed entry's `af_ends` is empty, and is the
first element of `af_ends` whenever the list is non-empty. -/
theorem getitem_event_offset_spec (ds : ECGDataset) (idx : ℤ)
    (entry : Entry) (out : Mat × List ℚ × ℤ)
    (hentry : pyListGet ds.metadata idx = Except.ok entry)
    (hout : ds.getitem idx = Except.ok out) :
    (out.2.2 = -1 ↔ entry.af_ends = []) ∧
    (∀ (a : ℕ) (t : List ℕ), entry.af_ends = a :: t → out.2.2 = (a : ℤ)) := by
  cases hstore : ds.preloaded_data entry.path with
  | none =>
    simp only [ECGDataset.getitem, hentry, hstore] at hout
    exact Except.noConfusion hout
  | some sig0 =>
    simp only [ECGDataset.getitem, hentry, hstore, Except.ok.injEq] at hout
    subst hout
    dsimp only
    cases haf : entry.af_ends with
    | nil =>
      simp only [haf]
      constructor
      · simp
      · intro a t h
        cases h
    | cons a t =>
      simp only [haf]
      constructor
      · constructor
        · intro h
          exfalso
          omega
        · intro h
          cases h
      · intro a2 t2 h
        injection h with h1 h2
        rw [h1]

/-- A concrete metadata entry used by witnesses. -/
def entryA : Entry :=
  { path := "A", «class» := 1, sig_len := 20000, af_ends := [5000] }

/-- A concrete preloaded store holding an empty raw signal under the key
"A". -/
def storeA : String → Option RawSig :=
  fun p => if p = "A" then some [] else none

/-- A concrete one-entry dataset used by witnesses. -/
def dsA : ECGDataset := { metadata := [entryA], preloaded_data := storeA }

/-- The output triple of `dsA.getitem 0`. -/
def outA : Mat × List ℚ × ℤ :=
  (transposeTS (extend_ts [] 15000), [((1 : ℤ) : ℚ)], ((5000 : ℕ) : ℤ))

/-- Witness for C5 on the concrete dataset `dsA`. -/
theorem getitem_event_offset_spec_witness :
    pyListGet dsA.metadata 0 = Except.ok entryA ∧
    dsA.getitem 0 = Except.ok outA ∧
    ((outA.2.2 = -1 ↔ entryA.af_ends = []) ∧
      (∀ (a : ℕ) (t : List ℕ), entryA.af_ends = a :: t → outA.2.2 = (a : ℤ))) :=
  ⟨rfl, rfl, getitem_event_offset_spec dsA 0 entryA outA rfl rfl⟩

/-- C7: invoked with train=False, `transform` returns its input signal
unchanged; consequently the adapter's get with the evaluation-mode
transform attached returns exactly what it returns with no transform
attached, and with no transform attached two invocations of get on the
same index over the same store yield the identical triple. -/
theorem eval_mode_deterministic (sig : Mat) (r1 r2 : ℚ) (factors : List ℚ)
    (offsets : List ℤ) (ds : ECGDataset) (idx : ℤ) :
    transform sig false r1 r2 factors offsets = sig ∧
    ECGDataset.getitem
        { ds with
          transform := some (fun s => transform s false r1 r2 factors offsets) }
        idx
      = ECGDataset.getitem { ds with transform := none } idx ∧
    ECGDataset.getitem { ds with transform := none } idx
      = ECGDataset.getitem { ds with transform := none } idx := by
  refine ⟨rfl, ?_, rfl⟩
  unfold ECGDataset.getitem
  dsimp only
  cases pyListGet ds.metadata idx with
  | error e => rfl
  | ok entry =>
    cases ds.preloaded_data entry.path with
    | none => rfl
    | some sig0 => rfl

/-- C10: a negative index `i` with `-length ≤ i < 0` is resolved by the
metadata list's Python semantics to position `length + i`, so get does
not raise IndexError there: it returns exactly what it returns at the
non-negative index `length + i`, and succeeds outright whenever the
store covers every path. -/
theorem getitem_negative_index_spec (ds : ECGDataset) (i : ℤ)
    (h1 : -(ds.metadata.length : ℤ) ≤ i) (h2 : i < 0) :
    ds.getitem i = ds.getitem ((ds.metadata.length : ℤ) + i) ∧
    ((∀ p, (ds.preloaded_data p).isSome) →
      ∃ out, ds.getitem i = Except.ok out) := by
  have hpg : pyListGet ds.metadata i
      = pyListGet ds.metadata ((ds.metadata.length : ℤ) + i) := by
    unfold pyListGet
    have e1 : (i < 0) = True := eq_true h2
    have e2 : ((ds.metadata.length : ℤ) + i < 0) = False := eq_false (by omega)
    simp only [e1, e2, if_true, if_false]
    rw [add_comm]
  constructor
  · unfold ECGDataset.getitem
    rw [hpg]
  · intro hstore
    obtain ⟨entry, hentry⟩ : ∃ e, pyListGet ds.metadata i = Except.ok e := by
      unfold pyListGet
      have e1 : (i < 0) = True := eq_true h2
      simp only [e1, if_true]
      rw [if_pos (by omega : (0 : ℤ) ≤ i + ds.metadata.length)]
      have hlt : (i + ds.metadata.length).toNat < ds.metadata.length := by
        omega
      cases hg : ds.metadata.get? (i + ds.metadata.length).toNat with
      | none =>
        rw [List.get?_eq_none] at hg
        omega
      | some a => exact ⟨a, rfl⟩
    have hsig := hstore entry.path
    cases hstoreEq : ds.preloaded_data entry.path with
    | none =>
      rw [hstoreEq] at hsig
      simp at hsig
    | some sig0 =>
      simp only [ECGDataset.getitem, hentry, hstoreEq]
      exact ⟨_, rfl⟩

/-- Witness for C10 on the concrete dataset `dsA` at index -1. -/
theorem getitem_negative_index_spec_witness :
    -((dsA.metadata.length : ℤ)) ≤ -1 ∧ (-1 : ℤ) < 0 ∧
    (dsA.getitem (-1) = dsA.getitem ((dsA.metadata.length : ℤ) + -1) ∧
      ((∀ p, (dsA.preloaded_data p).isSome) →
        ∃ out, dsA.getitem (-1) = Except.ok out)) :=
  ⟨by decide, by decide,
    getitem_negative_index_spec dsA (-1) (by decide) (by decide)⟩

/-- The preloaded dict built by `get_preloaded_data` has a value for `s`
as soon as some processed entry's path is `s` (or the initial dict
already had one): each fold step only adds a key. -/
theorem store_foldl_isSome (rdsamp : String → ℕ → RawSig) (l : List Entry)
    (d : String → Option RawSig) (s : String)
    (hmem : (∃ e ∈ l, e.path = s) ∨ (d s).isSome) :
    ((l.foldl
      (fun d e => fun p =>
        if p = e.path then some (rdsamp e.path (min 50000 e.sig_len)) else d p)
      d) s).isSome := by
  induction l generalizing d with
  | nil =>
    rcases hmem with ⟨e, he, _⟩ | h
    · cases he
    · exact h
  | cons a l ih =>
    simp only [List.foldl_cons]
    apply ih
    rcases hmem with ⟨e, he, hp⟩ | h
    · rcases List.mem_cons.mp he with rfl | h2
      · right
        rw [if_pos hp.symm]
        rfl
      · exact Or.inl ⟨e, h2, hp⟩
    · right
      by_cases hpa : s = a.path
      · rw [if_pos hpa]
        rfl
      · rw [if_neg hpa]
        exact h

/-- C6: every metadata entry returned by `get_preloaded_data` has class
different from the sentinel 2, and the preloaded store returned
alongside it holds a raw signal under that entry's path. -/
theorem get_preloaded_data_invariant (metadata_json : List Entry)
    (limit : Option ℕ) (rdsamp : String → ℕ → RawSig) (e : Entry)
    (he : e ∈ (get_preloaded_data metadata_json limit rdsamp).1) :
    e.«class» ≠ 2 ∧
    ((get_preloaded_data metadata_json limit rdsamp).2 e.path).isSome := by
  simp only [get_preloaded_data] at he ⊢
  constructor
  · have hf := List.mem_of_mem_take he
    have := (List.mem_filter.mp hf).2
    exact bne_iff_ne.mp this
  · exact store_foldl_isSome rdsamp _ _ _ (Or.inl ⟨e, he, rfl⟩)

/-- Witness for C6 on a one-entry metadata list. -/
theorem get_preloaded_data_invariant_witness :
    entryA ∈ (get_preloaded_data [entryA] none (fun _ _ => [])).1 ∧
    (entryA.«class» ≠ 2 ∧
      ((get_preloaded_data [entryA] none (fun _ _ => [])).2 entryA.path).isSome) :=
  ⟨by decide,
    get_preloaded_data_invariant [entryA] none (fun _ _ => []) entryA (by decide)⟩
